import Mathlib

/-!
Shallow embedding of `src/ext/common/DataStructures/LString.h` (Phusion
Passenger's segmented zero-copy string type) and proofs about its
operations: append, the three equality comparisons, hashing, contiguous
materialization and teardown.

Modelling conventions:
* A byte is a `Nat`; a memory region is a `List Nat`.
* `LString::Part` keeps the C layout: a `data` pointer is modelled by the
  list of bytes readable from that pointer (the region), and `size` is the
  separate length field; the part's logical bytes are `data.take size`.
  A well-formed part has `0 < size ∧ size ≤ data.length`.
* The singly-linked `start`/`end`/`next` chain is modelled by `parts : List Part`;
  `start == NULL && end == NULL` corresponds to `parts = []`, and
  `start == end` corresponds to `parts.length ≤ 1`.
* `mbuf_block` pointers are block identifiers (`Option Nat`); the global
  reference-count state is a function `Nat → Nat` and `mbuf_block_ref` /
  `mbuf_block_unref` update it.
* The pool allocator only supplies memory, so it needs no model: allocation
  is value construction.
-/

namespace LStringModel

/-- Source struct `LString::Part`: `data` models the bytes readable from the `data` pointer,
`size` is the part's size field, `mbuf_block` the optional backing block. -/
structure Part where
  mbuf_block : Option Nat
  data : List Nat
  size : Nat
  deriving Repr, DecidableEq

/-- Source struct `LString`: the chain of parts plus the cached total size. -/
structure LString where
  parts : List Part
  size : Nat
  deriving Repr, DecidableEq

/-- Placeholder used to model a dereference of a pointer the code assumes
to be non-NULL (`str->start`, `str->end`). -/
def dummyPart : Part := ⟨none, [], 0⟩

/-- The logical bytes of a part: `size` bytes starting at `data`. -/
def Part.bytes (p : Part) : List Nat := p.data.take p.size

/-- Concatenated logical content of a chain of parts. -/
def partsContent : List Part → List Nat
  | [] => []
  | p :: rest => p.bytes ++ partsContent rest

/-- Concatenated logical content of an `LString`. -/
def lstr_content (s : LString) : List Nat := partsContent s.parts

/-- Source `psg_lstr_first_byte`: `str->start->data[0]`. -/
def psg_lstr_first_byte (s : LString) : Nat :=
  ((s.parts.headD dummyPart).data).getD 0 0

/-- Source `psg_lstr_last_byte`: `str->end->data[str->end->size - 1]`. -/
def psg_lstr_last_byte (s : LString) : Nat :=
  let e := s.parts.getLastD dummyPart
  e.data.getD (e.size - 1) 0

/-- A well-formed part: never the empty string, and the `data` region holds
at least `size` readable bytes. -/
def partWf (p : Part) : Prop := 0 < p.size ∧ p.size ≤ p.data.length

instance (p : Part) : Decidable (partWf p) := by
  unfold partWf; exact inferInstance

/-- All parts of a chain are well-formed. -/
def partsWf (ps : List Part) : Prop := ∀ p ∈ ps, partWf p

instance (ps : List Part) : Decidable (partsWf ps) := by
  unfold partsWf; exact inferInstance

/-- Well-formed `LString`: the size field equals the sum of the part sizes
and every part is well-formed. -/
def LString.wf (s : LString) : Prop :=
  s.size = (s.parts.map Part.size).sum ∧ partsWf s.parts

instance (s : LString) : Decidable s.wf := by
  unfold LString.wf; exact inferInstance

/-- Source `psg_lstr_init`: the empty value (`start = end = NULL`, `size = 0`). -/
def psg_lstr_init : LString := ⟨[], 0⟩

/-- Source `psg_lstr_append_part`: link a part at the tail and add its size. -/
def psg_lstr_append_part (str : LString) (part : Part) : LString :=
  ⟨str.parts ++ [part], str.size + part.size⟩

/-- Source `psg_lstr_append(str, pool, data, size)`: the no-mbuf overload; a no-op
when `size == 0`, otherwise allocates a part with no block reference. -/
def psg_lstr_append (str : LString) (data : List Nat) (size : Nat) : LString :=
  if size = 0 then str
  else psg_lstr_append_part str ⟨none, data, size⟩

/-- Collaborator `mbuf_block_ref`: increment a block's reference count. -/
def mbuf_block_ref (refs : Nat → Nat) (blk : Nat) : Nat → Nat :=
  fun b => if b = blk then refs b + 1 else refs b

/-- Collaborator `mbuf_block_unref`: decrement a block's reference count. -/
def mbuf_block_unref (refs : Nat → Nat) (blk : Nat) : Nat → Nat :=
  fun b => if b = blk then refs b - 1 else refs b

/-- Source `psg_lstr_append(str, pool, buffer, data, size)`: the mbuf overload; a
no-op when `size == 0`, otherwise allocates a part recording the buffer's
block and takes a reference on that block. -/
def psg_lstr_append_mbuf (str : LString) (block : Nat) (data : List Nat)
    (size : Nat) (refs : Nat → Nat) : LString × (Nat → Nat) :=
  if size = 0 then (str, refs)
  else (psg_lstr_append_part str ⟨some block, data, size⟩, mbuf_block_ref refs block)

/-- Source `psg_lstr_null_terminate`: copy every part's bytes into a fresh buffer of
`size + 1` bytes, write a NUL after them, and wrap the buffer in a fresh
single-part string of the same size (the appended part's `data` region is the
whole buffer including the NUL; its `size` field excludes the NUL). -/
def psg_lstr_null_terminate (str : LString) : LString :=
  psg_lstr_append psg_lstr_init (lstr_content str ++ [0]) str.size

/-- Source `psg_lstr_make_contiguous`: return `str` itself when `size == 0` or
`start == end`, otherwise materialize via `psg_lstr_null_terminate`. -/
def psg_lstr_make_contiguous (str : LString) : LString :=
  if str.size = 0 ∨ str.parts.length ≤ 1 then str
  else psg_lstr_null_terminate str

/-- The part-walking loop of `psg_lstr_cmp(str, other)` (full-length view
comparison): `memcmp` each part's `size` bytes against the view cursor. -/
def cmpFullLoop : List Part → List Nat → Bool
  | [], _ => true
  | p :: rest, b =>
    if p.data.take p.size ≠ b.take p.size then false
    else cmpFullLoop rest (b.drop p.size)

/-- Source `psg_lstr_cmp(const LString *, const StaticString &)`: full comparison
against a contiguous view. -/
def psg_lstr_cmp_full (str : LString) (other : List Nat) : Bool :=
  if str.size ≠ other.length then false
  else if 0 < str.size ∧
      (psg_lstr_first_byte str ≠ other.getD 0 0 ∨
       psg_lstr_last_byte str ≠ other.getD (other.length - 1) 0) then false
  else cmpFullLoop str.parts other

/-- The part-walking loop of the bounded comparison: while a part remains and
`checked < size`, `memcmp` `min (size - checked) part.size` bytes against the
view cursor. -/
def cmpBoundedLoop : List Part → List Nat → Nat → Nat → Bool
  | [], _, _, _ => true
  | p :: rest, b, size, checked =>
    if checked < size then
      let localSize := min (size - checked) p.size
      if p.data.take localSize ≠ b.take localSize then false
      else cmpBoundedLoop rest (b.drop localSize) size (checked + localSize)
    else true

/-- Source `psg_lstr_cmp(const LString *, const StaticString &, unsigned int)` after
the initial clamping of `size`. -/
def psg_lstr_cmp_bounded_core (str : LString) (other : List Nat) (size : Nat) : Bool :=
  if size = 0 then true
  else if str.size < size ∨ other.length < size then false
  else if psg_lstr_first_byte str ≠ other.getD 0 0 then false
  else if str.parts.length ≤ 1 ∧
      (str.parts.headD dummyPart).data.getD (size - 1) 0 ≠ other.getD (size - 1) 0 then
    false
  else cmpBoundedLoop str.parts other size 0

/-- Source `psg_lstr_cmp(const LString *, const StaticString &, unsigned int)`:
bounded comparison; `size` is clamped to `max str.size other.length` when it
exceeds both operands' lengths. -/
def psg_lstr_cmp_bounded (str : LString) (other : List Nat) (size : Nat) : Bool :=
  psg_lstr_cmp_bounded_core str other
    (if str.size < size ∧ other.length < size then max str.size other.length else size)

/-- The lockstep window loop of `psg_lstr_cmp(const LString *, const LString *)`.
The state is the current part chain and the window's start offset inside the
head part on each side; `chunklen` is the smaller of the two windows, exactly
as maintained by the C loop (both at entry and after every resynchronization).
In the final branch the window end of A is strictly inside A's part, so
`chunklen` equals B's remaining bytes and the C code advances B to its next
part. -/
def cmpLstrLoop (aps : List Part) (aOff : Nat) (bps : List Part) (bOff : Nat) : Bool :=
  match aps, bps with
  | ap :: arest, bp :: brest =>
    let chunklen := min (ap.size - aOff) (bp.size - bOff)
    if (ap.data.drop aOff).take chunklen ≠ (bp.data.drop bOff).take chunklen then false
    else if (aOff + chunklen = ap.size ∧ arest = []) ∨
            (bOff + chunklen = bp.size ∧ brest = []) then true
    else if aOff + chunklen = ap.size then
      if bOff + chunklen = bp.size then cmpLstrLoop arest 0 brest 0
      else cmpLstrLoop arest 0 (bp :: brest) (bOff + chunklen)
    else cmpLstrLoop (ap :: arest) (aOff + chunklen) brest 0
  | _, _ => false
termination_by aps.length + bps.length
decreasing_by all_goals simp_arith

/-- The same loop, instrumented: the success exit checks the four `assert`s
(`a_end` at its part's end, `b_end` at its part's end, `a_part->next == NULL`,
`b_part->next == NULL`) and reports `none` when any of them would fail. -/
def cmpLstrLoopChecked (aps : List Part) (aOff : Nat) (bps : List Part) (bOff : Nat) :
    Option Bool :=
  match aps, bps with
  | ap :: arest, bp :: brest =>
    let chunklen := min (ap.size - aOff) (bp.size - bOff)
    if (ap.data.drop aOff).take chunklen ≠ (bp.data.drop bOff).take chunklen then some false
    else if (aOff + chunklen = ap.size ∧ arest = []) ∨
            (bOff + chunklen = bp.size ∧ brest = []) then
      if aOff + chunklen = ap.size ∧ bOff + chunklen = bp.size ∧
          arest = [] ∧ brest = [] then some true
      else none
    else if aOff + chunklen = ap.size then
      if bOff + chunklen = bp.size then cmpLstrLoopChecked arest 0 brest 0
      else cmpLstrLoopChecked arest 0 (bp :: brest) (bOff + chunklen)
    else cmpLstrLoopChecked (ap :: arest) (aOff + chunklen) brest 0
  | _, _ => some false
termination_by aps.length + bps.length
decreasing_by all_goals simp_arith

/-- Source `psg_lstr_cmp(const LString *, const LString *)`: segmented-vs-segmented
comparison. -/
def psg_lstr_cmp_ll (str other : LString) : Bool :=
  if str.size ≠ other.size then false
  else if str.size = 0 then true
  else if 0 < str.size ∧
      (psg_lstr_first_byte str ≠ psg_lstr_first_byte other ∨
       psg_lstr_last_byte str ≠ psg_lstr_last_byte other) then false
  else cmpLstrLoop str.parts 0 other.parts 0

/-- Modelled from the spec: `Utils/Hasher.h` is not under `src/`; the spec
specifies only a streaming, order-dependent hash accumulator with
`update(bytes, len)` and `finalize() -> digest`. A streaming accumulator
consumes its input byte by byte, so `update` is a fold of a per-byte step
over the fed bytes; the concrete step mixes the byte into a 32-bit state. -/
def hasherUpdateByte (h b : Nat) : Nat :=
  let h1 := (h + b) % 4294967296
  let h2 := (h1 + h1 * 1024) % 4294967296
  (h2 ^^^ (h2 / 64)) % 4294967296

/-- Modelled from the spec: `Hasher::update(data, size)` feeds the `size`
bytes at `data` into the stream. -/
def hasherUpdate (h : Nat) (data : List Nat) : Nat := data.foldl hasherUpdateByte h

/-- Modelled from the spec: `Hasher::finalize()` mixes the state into the
final 32-bit digest. -/
def hasherFinalize (h : Nat) : Nat :=
  let h1 := (h + h * 8) % 4294967296
  let h2 := (h1 ^^^ (h1 / 2048)) % 4294967296
  (h2 + h2 * 32768) % 4294967296

/-- Source `psg_lstr_hash`: feed every part's `size` bytes at `data`, in chain
order, into the accumulator and finalize. -/
def psg_lstr_hash (str : LString) : Nat :=
  hasherFinalize (str.parts.foldl (fun h p => hasherUpdate h (p.data.take p.size)) 0)

/-- Source `psg_lstr_deinit`: walk the parts, release one block reference per part
whose `mbuf_block` is non-NULL, then reset the value to the empty string. -/
def psg_lstr_deinit (str : LString) (refs : Nat → Nat) : LString × (Nat → Nat) :=
  (psg_lstr_init,
   str.parts.foldl
     (fun r p =>
       match p.mbuf_block with
       | some blk => mbuf_block_unref r blk
       | none => r)
     refs)

/-- Number of parts of `str` that reference block `b`. -/
def blockCount (str : LString) (b : Nat) : Nat :=
  (str.parts.filter (fun p => p.mbuf_block = some b)).length

/-- One append step, for reasoning about arbitrary sequences of appends:
either the plain overload or the mbuf overload of `psg_lstr_append`. -/
inductive AppendOp where
  | plain (data : List Nat) (size : Nat)
  | withBuf (block : Nat) (data : List Nat) (size : Nat)
  deriving Repr, DecidableEq

/-- Run one append on the string and reference-count state. -/
def runOp (st : LString × (Nat → Nat)) (op : AppendOp) : LString × (Nat → Nat) :=
  match op with
  | .plain d n => (psg_lstr_append st.1 d n, st.2)
  | .withBuf blk d n => psg_lstr_append_mbuf st.1 blk d n st.2

/-- Run a sequence of appends. -/
def runOps (ops : List AppendOp) (st : LString × (Nat → Nat)) : LString × (Nat → Nat) :=
  ops.foldl runOp st

/-- The length of the byte range an append op passes in. -/
def opSize : AppendOp → Nat
  | .plain _ n => n
  | .withBuf _ _ n => n

/-- The bytes still to be compared in one operand of the lockstep loop: the
rest of the current part from the window offset on, then all later parts. -/
def remContent : List Part → Nat → List Nat
  | [], _ => []
  | p :: rest, off => p.bytes.drop off ++ partsContent rest

/-- A valid window offset: strictly inside the current part. -/
def offOk : List Part → Nat → Prop
  | [], _ => True
  | p :: _, off => off < p.size

instance (ps : List Part) (off : Nat) : Decidable (offOk ps off) := by
  unfold offOk; cases ps <;> exact inferInstance

/-- Concrete value from the spec scenario: parts `"ab"`, `"c"`. -/
def wA : LString := ⟨[⟨none, [97, 98], 2⟩, ⟨none, [99], 1⟩], 3⟩

/-- Concrete value from the spec scenario: parts `"a"`, `"bc"`. -/
def wB : LString := ⟨[⟨none, [97], 1⟩, ⟨none, [98, 99], 2⟩], 3⟩

/-- Concrete single-part value `"a"` used as a bounded-comparison operand. -/
def cexStr : LString := ⟨[⟨none, [97], 1⟩], 1⟩

/-- Concrete value for the teardown scenario: one part backed by block `0`,
one unbacked part. -/
def deinitDemo : LString := ⟨[⟨some 0, [97], 1⟩, ⟨none, [98], 1⟩], 2⟩

/-! ## Helper lemmas -/

theorem partsWf_cons_head {p : Part} {rest : List Part} (h : partsWf (p :: rest)) :
    partWf p := h p (by simp)

theorem partsWf_cons_tail {p : Part} {rest : List Part} (h : partsWf (p :: rest)) :
    partsWf rest := fun q hq => h q (by simp [hq])

theorem Part.bytes_length (p : Part) (h : partWf p) : p.bytes.length = p.size := by
  simp only [Part.bytes, List.length_take]
  exact Nat.min_eq_left h.2

theorem Part.bytes_ne_nil (p : Part) (h : partWf p) : p.bytes ≠ [] := by
  intro hc
  have hl := Part.bytes_length p h
  rw [hc] at hl
  simp at hl
  have h1 := h.1
  omega

theorem partsContent_length (ps : List Part) (h : partsWf ps) :
    (partsContent ps).length = (ps.map Part.size).sum := by
  induction ps with
  | nil => rfl
  | cons p rest ih =>
    simp [partsContent, Part.bytes_length p (partsWf_cons_head h),
      ih (partsWf_cons_tail h)]

theorem lstr_content_length (s : LString) (h : s.wf) :
    (lstr_content s).length = s.size := by
  rw [lstr_content, partsContent_length s.parts h.2, h.1]

theorem partsContent_eq_nil_iff (ps : List Part) (h : partsWf ps) :
    partsContent ps = [] ↔ ps = [] := by
  cases ps with
  | nil => simp [partsContent]
  | cons p rest =>
    simp only [partsContent, List.append_eq_nil]
    constructor
    · rintro ⟨hb, -⟩
      exact absurd hb (Part.bytes_ne_nil p (partsWf_cons_head h))
    · intro hc
      exact absurd hc (by simp)

theorem wf_size_zero (s : LString) (h : s.wf) (h0 : s.size = 0) : s.parts = [] := by
  cases hp : s.parts with
  | nil => rfl
  | cons p rest =>
    exfalso
    have hw : partWf p := h.2 p (by rw [hp]; simp)
    have hsum := h.1
    rw [hp, h0] at hsum
    simp [List.sum_cons] at hsum
    have h1 := hw.1
    omega

theorem wf_size_pos_parts_ne_nil (s : LString) (h : s.wf) (h0 : 0 < s.size) :
    s.parts ≠ [] := by
  intro hc
  have := h.1
  rw [hc] at this
  simp at this
  omega

theorem headD_append {α : Type} (l l' : List α) (d : α) (h : l ≠ []) :
    (l ++ l').headD d = l.headD d := by
  cases l <;> simp_all

theorem getD_zero_eq_headD {α : Type} (l : List α) (d : α) : l.getD 0 d = l.headD d := by
  cases l <;> rfl

theorem headD_take {α : Type} (l : List α) (n : Nat) (d : α) (h : 0 < n) :
    (l.take n).headD d = l.headD d := by
  cases l with
  | nil => simp
  | cons a t => cases n with
    | zero => omega
    | succ m => rfl

theorem getD_take {α : Type} (l : List α) (n i : Nat) (d : α) (h : i < n) :
    (l.take n).getD i d = l.getD i d := by
  rw [List.getD_eq_getElem?_getD, List.getD_eq_getElem?_getD, List.getElem?_take,
    if_pos h]

theorem getD_append_left {α : Type} (l l' : List α) (i : Nat) (d : α)
    (h : i < l.length) : (l ++ l').getD i d = l.getD i d := by
  rw [List.getD_eq_getElem?_getD, List.getD_eq_getElem?_getD,
    List.getElem?_append, if_pos h]

theorem getLastD_eq_getD {α : Type} (l : List α) (d : α) :
    l.getLastD d = l.getD (l.length - 1) d := by
  rw [List.getLastD_eq_getLast?, List.getLast?_eq_getElem?,
    List.getD_eq_getElem?_getD]

theorem getLastD_append {α : Type} (l l' : List α) (d : α) (h : l' ≠ []) :
    (l ++ l').getLastD d = l'.getLastD d := by
  rw [List.getLastD_eq_getLast?, List.getLastD_eq_getLast?, List.getLast?_append]
  cases hl : l'.getLast? with
  | none =>
    exfalso
    cases l' with
    | nil => exact h rfl
    | cons a t => rw [List.getLast?_eq_getElem?] at hl; simp at hl
  | some a => rfl

theorem first_byte_content (s : LString) (h : s.wf) (hne : s.parts ≠ []) :
    psg_lstr_first_byte s = (lstr_content s).headD 0 := by
  rcases hp : s.parts with _ | ⟨p, rest⟩
  · exact absurd hp hne
  have hw : partWf p := h.2 p (by rw [hp]; simp)
  rw [psg_lstr_first_byte, lstr_content, hp]
  simp only [List.headD_cons, partsContent]
  rw [headD_append _ _ _ (Part.bytes_ne_nil p hw), Part.bytes,
    headD_take _ _ _ hw.1, getD_zero_eq_headD]

theorem partsContent_getLastD (ps : List Part) (h : partsWf ps) (hne : ps ≠ []) :
    (partsContent ps).getLastD 0 =
      (ps.getLastD dummyPart).data.getD ((ps.getLastD dummyPart).size - 1) 0 := by
  induction ps with
  | nil => exact absurd rfl hne
  | cons p rest ih =>
    have hw : partWf p := partsWf_cons_head h
    cases hr : rest with
    | nil =>
      simp only [partsContent, hr, List.append_nil, List.getLastD_cons,
        List.getLastD_nil]
      rw [getLastD_eq_getD _ _, Part.bytes_length p hw,
        Part.bytes, getD_take]
      have h1 := hw.1
      omega
    | cons q t =>
      rw [← hr]
      have hrne : rest ≠ [] := by rw [hr]; simp
      have hcne : partsContent rest ≠ [] := by
        rw [Ne, partsContent_eq_nil_iff rest (partsWf_cons_tail h)]
        exact hrne
      simp only [partsContent]
      rw [getLastD_append _ _ _ hcne, ih (partsWf_cons_tail h) hrne]
      congr 1 <;> · rcases hr' : rest with _ | ⟨q', t'⟩
                    · exact absurd hr' hrne
                    · simp [List.getLastD_cons]

theorem last_byte_content (s : LString) (h : s.wf) (hne : s.parts ≠ []) :
    psg_lstr_last_byte s = (lstr_content s).getLastD 0 := by
  rw [psg_lstr_last_byte, lstr_content, partsContent_getLastD s.parts h.2 hne]

/-! ## Hash lemmas -/

theorem hasherUpdate_append (h : Nat) (xs ys : List Nat) :
    hasherUpdate h (xs ++ ys) = hasherUpdate (hasherUpdate h xs) ys := by
  simp [hasherUpdate, List.foldl_append]

theorem hash_eq_content_hash (str : LString) :
    psg_lstr_hash str = hasherFinalize (hasherUpdate 0 (lstr_content str)) := by
  rw [psg_lstr_hash, lstr_content]
  congr 1
  suffices hgen : ∀ (ps : List Part) (h0 : Nat),
      ps.foldl (fun h p => hasherUpdate h (p.data.take p.size)) h0 =
        hasherUpdate h0 (partsContent ps) from hgen _ 0
  intro ps
  induction ps with
  | nil => intro h0; simp [partsContent, hasherUpdate]
  | cons p rest ih =>
    intro h0
    simp only [List.foldl_cons, partsContent, hasherUpdate_append, ih, Part.bytes]

/-- C5: `psg_lstr_hash` depends only on the concatenated byte content of the
string, not on its segmentation: any two well-formed `LString`s with equal
concatenated contents hash equal. -/
theorem psg_lstr_hash_content_only (A B : LString) (_hA : A.wf) (_hB : B.wf)
    (h : lstr_content A = lstr_content B) : psg_lstr_hash A = psg_lstr_hash B := by
  rw [hash_eq_content_hash, hash_eq_content_hash, h]

/-- Witness for C5 at the spec scenario `A = "ab","c"`, `B = "a","bc"`. -/
theorem psg_lstr_hash_content_only_witness :
    LString.wf wA ∧ LString.wf wB ∧ lstr_content wA = lstr_content wB ∧
      psg_lstr_hash wA = psg_lstr_hash wB :=
  ⟨by decide, by decide, by decide,
    psg_lstr_hash_content_only wA wB (by decide) (by decide) (by decide)⟩

/-! ## Materialization -/

/-- C6: `psg_lstr_make_contiguous` returns the string itself when it is empty
or a single part; otherwise it returns a fresh single-part string of the same
size whose sole part holds no buffer-block reference and whose buffer is the
concatenated content followed by a NUL byte at offset `size`. -/
theorem psg_lstr_make_contiguous_correct (str : LString) (h : str.wf) :
    (str.parts.length ≤ 1 → psg_lstr_make_contiguous str = str) ∧
    (1 < str.parts.length →
      (psg_lstr_make_contiguous str).parts =
        [⟨none, lstr_content str ++ [0], str.size⟩] ∧
      (psg_lstr_make_contiguous str).size = str.size ∧
      (lstr_content str ++ [0]).take str.size = lstr_content str ∧
      (lstr_content str ++ [0]).getD str.size 0 = 0) := by
  constructor
  · intro hlen
    rw [psg_lstr_make_contiguous, if_pos (Or.inr hlen)]
  · intro hlen
    have h0 : str.size ≠ 0 := by
      intro hz
      have hp := wf_size_zero str h hz
      rw [hp] at hlen
      simp at hlen
    rw [psg_lstr_make_contiguous, if_neg (by push_neg; exact ⟨h0, by omega⟩)]
    rw [psg_lstr_null_terminate, psg_lstr_append, if_neg h0]
    refine ⟨rfl, by simp [psg_lstr_append_part, psg_lstr_init], ?_, ?_⟩
    · have hcl : (lstr_content str).length = str.size := lstr_content_length str h
      rw [← hcl, List.take_left]
    · have hcl : (lstr_content str).length = str.size := lstr_content_length str h
      rw [List.getD_eq_getElem?_getD, List.getElem?_append, if_neg (by omega)]
      rw [hcl]
      simp

/-- Witness for C6 at the two-part scenario value. -/
theorem psg_lstr_make_contiguous_correct_witness :
    LString.wf wA ∧ 1 < wA.parts.length ∧
      (psg_lstr_make_contiguous wA).parts = [⟨none, lstr_content wA ++ [0], wA.size⟩] :=
  ⟨by decide, by decide,
    ((psg_lstr_make_contiguous_correct wA (by decide)).2 (by decide)).1⟩

/-! ## Append invariant -/

theorem runOp_fst_size (st : LString × (Nat → Nat)) (op : AppendOp) :
    (runOp st op).1.size = st.1.size + opSize op := by
  rcases op with ⟨d, n⟩ | ⟨blk, d, n⟩ <;> by_cases h : n = 0 <;>
    simp [runOp, psg_lstr_append, psg_lstr_append_mbuf, psg_lstr_append_part,
      opSize, h]

theorem runOp_inv (st : LString × (Nat → Nat)) (op : AppendOp)
    (h1 : st.1.size = (st.1.parts.map Part.size).sum)
    (h2 : ∀ p ∈ st.1.parts, p.size ≠ 0) :
    (runOp st op).1.size = ((runOp st op).1.parts.map Part.size).sum ∧
      ∀ p ∈ (runOp st op).1.parts, p.size ≠ 0 := by
  rcases op with ⟨d, n⟩ | ⟨blk, d, n⟩ <;> by_cases h : n = 0
  · simpa [runOp, psg_lstr_append, h] using ⟨h1, h2⟩
  · constructor
    · simp [runOp, psg_lstr_append, h, psg_lstr_append_part, h1]
    · intro p hp
      have hp' : p ∈ st.1.parts ++ [(⟨none, d, n⟩ : Part)] := by
        simpa [runOp, psg_lstr_append, if_neg h, psg_lstr_append_part] using hp
      rcases List.mem_append.mp hp' with hp2 | hp2
      · exact h2 p hp2
      · rw [List.mem_singleton.mp hp2]; exact h
  · simpa [runOp, psg_lstr_append_mbuf, h] using ⟨h1, h2⟩
  · constructor
    · simp [runOp, psg_lstr_append_mbuf, h, psg_lstr_append_part, h1]
    · intro p hp
      have hp' : p ∈ st.1.parts ++ [(⟨some blk, d, n⟩ : Part)] := by
        simpa [runOp, psg_lstr_append_mbuf, if_neg h, psg_lstr_append_part] using hp
      rcases List.mem_append.mp hp' with hp2 | hp2
      · exact h2 p hp2
      · rw [List.mem_singleton.mp hp2]; exact h

theorem runOps_inv (ops : List AppendOp) : ∀ (st : LString × (Nat → Nat)),
    st.1.size = (st.1.parts.map Part.size).sum →
    (∀ p ∈ st.1.parts, p.size ≠ 0) →
    ((runOps ops st).1.size = st.1.size + (ops.map opSize).sum ∧
     (runOps ops st).1.size = ((runOps ops st).1.parts.map Part.size).sum ∧
     ∀ p ∈ (runOps ops st).1.parts, p.size ≠ 0) := by
  induction ops with
  | nil => intro st h1 h2; exact ⟨by simp [runOps], by simpa [runOps] using h1,
      by simpa [runOps] using h2⟩
  | cons op rest ih =>
    intro st h1 h2
    obtain ⟨g1, g2⟩ := runOp_inv st op h1 h2
    obtain ⟨k1, k2, k3⟩ := ih (runOp st op) g1 g2
    have hstep : runOps (op :: rest) st = runOps rest (runOp st op) := by
      simp [runOps]
    rw [hstep]
    refine ⟨?_, k2, k3⟩
    rw [k1, runOp_fst_size]
    simp [List.sum_cons]
    omega

/-- C7: starting from the empty value, any sequence of appends with total
length `L` yields a value with `size = L`, empty iff `L = 0`, no zero-size
part, and `size` equal to the sum of the part sizes; a zero-length append of
either overload changes nothing. -/
theorem psg_lstr_append_invariant (ops : List AppendOp) (refs : Nat → Nat) :
    (runOps ops (psg_lstr_init, refs)).1.size = (ops.map opSize).sum ∧
    ((runOps ops (psg_lstr_init, refs)).1.size = 0 ↔
      (runOps ops (psg_lstr_init, refs)).1.parts = []) ∧
    (∀ p ∈ (runOps ops (psg_lstr_init, refs)).1.parts, p.size ≠ 0) ∧
    (runOps ops (psg_lstr_init, refs)).1.size =
      ((runOps ops (psg_lstr_init, refs)).1.parts.map Part.size).sum ∧
    (∀ d, psg_lstr_append (runOps ops (psg_lstr_init, refs)).1 d 0 =
      (runOps ops (psg_lstr_init, refs)).1) ∧
    (∀ blk d refs2,
      psg_lstr_append_mbuf (runOps ops (psg_lstr_init, refs)).1 blk d 0 refs2 =
        ((runOps ops (psg_lstr_init, refs)).1, refs2)) := by
  obtain ⟨k1, k2, k3⟩ :=
    runOps_inv ops (psg_lstr_init, refs) rfl (by simp [psg_lstr_init])
  refine ⟨by simpa [psg_lstr_init] using k1, ⟨?_, ?_⟩, k3, k2,
    fun d => by simp [psg_lstr_append],
    fun blk d refs2 => by simp [psg_lstr_append_mbuf]⟩
  · intro h0
    rcases hp : (runOps ops (psg_lstr_init, refs)).1.parts with _ | ⟨p, rest⟩
    · rfl
    · exfalso
      have hz : p.size ≠ 0 := k3 p (by rw [hp]; simp)
      rw [hp, h0] at k2
      simp [List.sum_cons] at k2
      omega
  · intro hp
    rw [k2, hp]
    simp

/-! ## Teardown -/

theorem deinit_refs_general (ps : List Part) : ∀ (refs : Nat → Nat) (b : Nat),
    (ps.foldl
      (fun r p =>
        match p.mbuf_block with
        | some blk => mbuf_block_unref r blk
        | none => r)
      refs) b
      = refs b - (ps.filter (fun p => p.mbuf_block = some b)).length := by
  induction ps with
  | nil => intro refs b; simp
  | cons p rest ih =>
    intro refs b
    rw [List.foldl_cons, List.filter_cons]
    cases hm : p.mbuf_block with
    | none => simp [hm, ih]
    | some blk =>
      by_cases hb : blk = b
      · subst hb
        rw [if_pos (by simp [hm])]
        rw [ih]
        simp [mbuf_block_unref]
        omega
      · rw [if_neg (by simp [hm, hb])]
        rw [ih]
        simp [mbuf_block_unref, Ne.symm hb]

/-- C8: `psg_lstr_deinit` releases exactly one block reference per part whose
`mbuf_block` is non-NULL (decrementing that block's refcount once per such
part, nothing for unbacked parts) and resets the value to the empty string. -/
theorem psg_lstr_deinit_correct (str : LString) (refs : Nat → Nat) (b : Nat)
    (h : blockCount str b ≤ refs b) :
    (psg_lstr_deinit str refs).2 b = refs b - blockCount str b ∧
    (psg_lstr_deinit str refs).2 b + blockCount str b = refs b ∧
    (psg_lstr_deinit str refs).1 = psg_lstr_init := by
  have hg : (psg_lstr_deinit str refs).2 b = refs b - blockCount str b := by
    rw [psg_lstr_deinit, blockCount]
    exact deinit_refs_general str.parts refs b
  refine ⟨hg, ?_, rfl⟩
  omega

/-- Witness for C8 at the spec scenario: one part backed by a block of
refcount 2, one unbacked part; afterwards the block's refcount is 1 and the
value is empty. -/
theorem psg_lstr_deinit_correct_witness :
    blockCount deinitDemo 0 ≤ (fun _ => 2 : Nat → Nat) 0 ∧
      (psg_lstr_deinit deinitDemo (fun _ => 2)).2 0 =
        (fun _ => 2 : Nat → Nat) 0 - blockCount deinitDemo 0 ∧
      (psg_lstr_deinit deinitDemo (fun _ => 2)).2 0 = 1 ∧
      (psg_lstr_deinit deinitDemo (fun _ => 2)).1 = psg_lstr_init :=
  ⟨by decide,
    (psg_lstr_deinit_correct deinitDemo (fun _ => 2) 0 (by decide)).1,
    by decide,
    (psg_lstr_deinit_correct deinitDemo (fun _ => 2) 0 (by decide)).2.2⟩

/-- C10: teardown is idempotent on one struct: the first call leaves the
freshly initialized empty value, and a second call on that value changes
neither the value nor any reference count. -/
theorem psg_lstr_deinit_idempotent (str : LString) (refs refs2 : Nat → Nat) :
    (psg_lstr_deinit str refs).1 = psg_lstr_init ∧
    psg_lstr_deinit (psg_lstr_deinit str refs).1 refs2 =
      ((psg_lstr_deinit str refs).1, refs2) :=
  ⟨rfl, rfl⟩

/-! ## Full-length comparison against a contiguous view -/

theorem bytes_take_size (p : Part) : p.bytes.take p.size = p.bytes := by
  rw [Part.bytes, List.take_take]
  simp

theorem cmpFullLoop_correct (ps : List Part) : ∀ (b : List Nat), partsWf ps →
    b.length = (ps.map Part.size).sum →
    (cmpFullLoop ps b = true ↔ partsContent ps = b) := by
  induction ps with
  | nil =>
    intro b _ hb
    simp only [List.map_nil, List.sum_nil] at hb
    simp [cmpFullLoop, partsContent, List.length_eq_zero.mp hb]
  | cons p rest ih =>
    intro b hwf hb
    have hp : partWf p := partsWf_cons_head hwf
    have hrest := partsWf_cons_tail hwf
    have hblen : p.size ≤ b.length := by
      rw [hb, List.map_cons, List.sum_cons]
      omega
    have hbl : p.bytes.length = p.size := Part.bytes_length p hp
    rw [cmpFullLoop]
    by_cases hc : p.data.take p.size = b.take p.size
    · rw [if_neg (by simpa using hc)]
      have hdlen : (b.drop p.size).length = (rest.map Part.size).sum := by
        rw [List.length_drop, hb, List.map_cons, List.sum_cons]
        omega
      rw [ih (b.drop p.size) hrest hdlen]
      have hby : p.bytes = b.take p.size := by rw [Part.bytes, hc]
      constructor
      · intro hco
        rw [partsContent, hby]
        conv_rhs => rw [← List.take_append_drop p.size b]
        rw [hco]
      · intro hco
        rw [partsContent, hby] at hco
        conv_rhs at hco => rw [← List.take_append_drop p.size b]
        exact List.append_cancel_left hco
    · rw [if_pos (by simpa using hc)]
      simp only [Bool.false_eq_true, false_iff]
      intro hco
      apply hc
      have := congrArg (List.take p.size) hco
      rw [partsContent, List.take_append_of_le_length (by omega),
        bytes_take_size, Part.bytes] at this
      exact this


/-- C4: the full-length comparison against a contiguous view returns true iff
the sizes match and the concatenated content equals the view's bytes. -/
theorem psg_lstr_cmp_full_correct (str : LString) (other : List Nat) (h : str.wf) :
    (psg_lstr_cmp_full str other = true ↔
      (str.size = other.length ∧ lstr_content str = other)) := by
  rw [psg_lstr_cmp_full]
  by_cases hlen : str.size = other.length
  · rw [if_neg (by simpa using hlen)]
    by_cases hfast : 0 < str.size ∧
        (psg_lstr_first_byte str ≠ other.getD 0 0 ∨
         psg_lstr_last_byte str ≠ other.getD (other.length - 1) 0)
    · rw [if_pos hfast]
      simp only [Bool.false_eq_true, false_iff]
      rintro ⟨-, hco⟩
      obtain ⟨hpos, hbad⟩ := hfast
      have hne : str.parts ≠ [] := wf_size_pos_parts_ne_nil str h hpos
      rcases hbad with hfb | hlb
      · apply hfb
        rw [first_byte_content str h hne, hco, getD_zero_eq_headD]
      · apply hlb
        rw [last_byte_content str h hne, hco, getLastD_eq_getD]
    · rw [if_neg hfast]
      rw [cmpFullLoop_correct str.parts other h.2 (by rw [← hlen, h.1])]
      rw [lstr_content]
      constructor
      · intro hc; exact ⟨hlen, hc⟩
      · rintro ⟨-, hc⟩; exact hc
  · rw [if_pos (by simpa using hlen)]
    simp only [Bool.false_eq_true, false_iff]
    rintro ⟨hc, -⟩; exact hlen hc

/-- Witness for C4 at the spec scenario value against its contiguous bytes. -/
theorem psg_lstr_cmp_full_correct_witness :
    LString.wf wA ∧
      (psg_lstr_cmp_full wA [97, 98, 99] = true ↔
        (wA.size = ([97, 98, 99] : List Nat).length ∧
          lstr_content wA = [97, 98, 99])) :=
  ⟨by decide, psg_lstr_cmp_full_correct wA [97, 98, 99] (by decide)⟩

/-! ## Bounded comparison against a contiguous view -/

theorem bytes_take_of_le (p : Part) (n : Nat) (h : n ≤ p.size) :
    p.bytes.take n = p.data.take n := by
  rw [Part.bytes, List.take_take]
  congr 1
  omega

theorem cmpBoundedLoop_correct (ps : List Part) : ∀ (b : List Nat) (size checked : Nat),
    partsWf ps → checked ≤ size →
    size - checked ≤ (partsContent ps).length →
    size - checked ≤ b.length →
    (cmpBoundedLoop ps b size checked = true ↔
      (partsContent ps).take (size - checked) = b.take (size - checked)) := by
  induction ps with
  | nil =>
    intro b size checked _ h1 h2 _
    have hz : size - checked = 0 := by simpa [partsContent] using h2
    simp [cmpBoundedLoop, hz]
  | cons p rest ih =>
    intro b size checked hwf h1 h2 h3
    have hp := partsWf_cons_head hwf
    have hrest := partsWf_cons_tail hwf
    have hbl := Part.bytes_length p hp
    have hcl : (partsContent (p :: rest)).length =
        p.size + (partsContent rest).length := by
      simp [partsContent, hbl]
    rw [cmpBoundedLoop]
    by_cases hlt : checked < size
    case neg =>
      rw [if_neg hlt]
      have hz : size - checked = 0 := by omega
      simp [hz]
    case pos =>
      rw [if_pos hlt]
      simp only []
      set k := size - checked with hk
      set ls := min (size - checked) p.size with hls
      have hls1 : ls ≤ p.size := by omega
      have hls2 : ls ≤ k := by omega
      have hchunk : p.bytes.take ls = p.data.take ls := bytes_take_of_le p ls hls1
      by_cases hc : p.data.take ls = b.take ls
      case neg =>
        rw [if_pos (by simpa using hc)]
        simp only [Bool.false_eq_true, false_iff]
        intro heq
        apply hc
        have h4 := congrArg (List.take ls) heq
        rw [List.take_take, List.take_take] at h4
        have hmin : ls ⊓ k = ls := by omega
        rw [hmin] at h4
        rw [show partsContent (p :: rest) = p.bytes ++ partsContent rest from rfl,
          List.take_append_of_le_length (by omega), hchunk] at h4
        exact h4
      case pos =>
        rw [if_neg (by simpa using hc)]
        have hstep : size - (checked + ls) = k - ls := by omega
        have hrec := ih (b.drop ls) size (checked + ls) hrest (by omega)
          (by rw [hstep]; omega) (by rw [hstep, List.length_drop]; omega)
        rw [hrec, hstep]
        have hcontent : partsContent (p :: rest) = p.bytes ++ partsContent rest := rfl
        by_cases hcase : k ≤ p.size
        · -- the whole remaining bound fits in this part: ls = k, recursion is trivial
          have hlsk : ls = k := by omega
          rw [hlsk]
          simp only [Nat.sub_self, List.take_zero, eq_self_iff_true, true_iff]
          rw [hcontent, List.take_append_of_le_length (by omega),
            bytes_take_of_le p k (by omega)]
          rw [hlsk] at hc
          exact hc
        · -- this part is consumed whole: ls = p.size
          have hlsp : ls = p.size := by omega
          have hbytes : p.bytes = b.take ls := by
            have h5 : p.bytes.take ls = b.take ls := hchunk.trans hc
            rw [show p.bytes.take ls = p.bytes from by
              rw [hlsp, ← hbl, List.take_length]] at h5
            exact h5
          have hsplit : (partsContent (p :: rest)).take k =
              b.take ls ++ (partsContent rest).take (k - ls) := by
            rw [hcontent, List.take_append_eq_append_take,
              List.take_of_length_le (by omega), hbl, ← hlsp, ← hbytes]
          have hbsplit : b.take k = b.take ls ++ (b.drop ls).take (k - ls) := by
            conv_lhs => rw [show k = ls + (k - ls) by omega]
            exact List.take_add b ls (k - ls)
          rw [hsplit, hbsplit, List.append_right_inj]

theorem psg_lstr_cmp_bounded_core_correct (str : LString) (other : List Nat) (n : Nat)
    (h : str.wf) (h1 : n ≤ str.size) (h2 : n ≤ other.length) :
    (psg_lstr_cmp_bounded_core str other n = true ↔
      (lstr_content str).take n = other.take n) := by
  rw [psg_lstr_cmp_bounded_core]
  by_cases h0 : n = 0
  · rw [if_pos h0]
    subst h0
    simp
  · rw [if_neg h0]
    rw [if_neg (by omega : ¬(str.size < n ∨ other.length < n))]
    have hpos : 0 < str.size := by omega
    have hne : str.parts ≠ [] := wf_size_pos_parts_ne_nil str h hpos
    have hcl : (lstr_content str).length = str.size := lstr_content_length str h
    by_cases hfb : psg_lstr_first_byte str = other.getD 0 0
    case neg =>
      rw [if_pos hfb]
      simp only [Bool.false_eq_true, false_iff]
      intro heq
      apply hfb
      have h4 : ((lstr_content str).take n).headD 0 = (other.take n).headD 0 := by
        rw [heq]
      rw [headD_take _ _ _ (by omega), headD_take _ _ _ (by omega)] at h4
      rw [first_byte_content str h hne, getD_zero_eq_headD]
      exact h4
    case pos =>
      rw [if_neg (not_not_intro hfb)]
      by_cases hsp : str.parts.length ≤ 1 ∧
          (str.parts.headD dummyPart).data.getD (n - 1) 0 ≠ other.getD (n - 1) 0
      · rw [if_pos hsp]
        simp only [Bool.false_eq_true, false_iff]
        intro heq
        obtain ⟨hone, hbad⟩ := hsp
        apply hbad
        rcases hps : str.parts with _ | ⟨p, rest⟩
        · exact absurd hps hne
        have hrnil : rest = [] := by
          rw [hps] at hone
          simpa using hone
        subst hrnil
        have hpw : partWf p := h.2 p (by rw [hps]; simp)
        have hsz : str.size = p.size := by
          have hs := h.1
          rw [hps] at hs
          simpa using hs
        have hco : lstr_content str = p.bytes := by
          rw [lstr_content, hps]
          simp [partsContent]
        have h4 : ((lstr_content str).take n).getD (n - 1) 0 =
            (other.take n).getD (n - 1) 0 := by rw [heq]
        rw [getD_take _ _ _ _ (by omega), getD_take _ _ _ _ (by omega)] at h4
        rw [hco, Part.bytes, getD_take _ _ _ _ (by omega)] at h4
        simpa using h4
      · rw [if_neg hsp]
        have hloop := cmpBoundedLoop_correct str.parts other n 0 h.2 (by omega)
          (by rw [lstr_content] at hcl; omega) (by omega)
        simpa [lstr_content] using hloop

/-- C3: when the requested bound does not exceed either operand, the bounded
comparison returns true iff the first `n` bytes of the concatenated content
equal the first `n` bytes of the view; for `n = 0` it returns true. -/
theorem psg_lstr_cmp_bounded_prefix_correct (str : LString) (other : List Nat)
    (n : Nat) (h : str.wf) (h1 : n ≤ str.size) (h2 : n ≤ other.length) :
    (psg_lstr_cmp_bounded str other n = true ↔
      (lstr_content str).take n = other.take n) ∧
    psg_lstr_cmp_bounded str other 0 = true := by
  constructor
  · rw [psg_lstr_cmp_bounded, if_neg (by omega)]
    exact psg_lstr_cmp_bounded_core_correct str other n h h1 h2
  · rw [psg_lstr_cmp_bounded]
    have hz : ¬(str.size < 0 ∧ other.length < 0) := by omega
    rw [if_neg hz, psg_lstr_cmp_bounded_core, if_pos rfl]

/-- Witness for C3 at the two-part scenario value with bound 2. -/
theorem psg_lstr_cmp_bounded_prefix_correct_witness :
    LString.wf wA ∧ 2 ≤ wA.size ∧ 2 ≤ ([97, 98, 100] : List Nat).length ∧
      ((psg_lstr_cmp_bounded wA [97, 98, 100] 2 = true ↔
        (lstr_content wA).take 2 = ([97, 98, 100] : List Nat).take 2) ∧
       psg_lstr_cmp_bounded wA [97, 98, 100] 0 = true) :=
  ⟨by decide, by decide, by decide,
    psg_lstr_cmp_bounded_prefix_correct wA [97, 98, 100] 2 (by decide) (by decide)
      (by decide)⟩

/-- Counterexample to C2 as stated: `str = "a"` (size 1), `other = "ab"`
(size 2), `n = 5` exceeds both; the first `min 1 2 = 1` bytes agree, yet the
comparison returns false, because the code clamps `n` to the *maximum* of the
lengths and then rejects the shorter operand. -/
theorem psg_lstr_cmp_bounded_overlap_cex :
    LString.wf cexStr ∧
    cexStr.size < 5 ∧ ([97, 98] : List Nat).length < 5 ∧
    psg_lstr_cmp_bounded cexStr [97, 98] 5 = false ∧
    (lstr_content cexStr).take (min cexStr.size ([97, 98] : List Nat).length) =
      ([97, 98] : List Nat).take (min cexStr.size ([97, 98] : List Nat).length) := by
  decide

/-- C2 (amended): when the requested bound exceeds both operands' lengths,
the bounded comparison behaves as a *full* comparison: it returns true iff
the operands have equal lengths and equal bytes (not merely an equal
overlap). -/
theorem psg_lstr_cmp_bounded_exceed_correct (str : LString) (other : List Nat)
    (n : Nat) (h : str.wf) (h1 : str.size < n) (h2 : other.length < n) :
    (psg_lstr_cmp_bounded str other n = true ↔
      (str.size = other.length ∧ lstr_content str = other)) := by
  rw [psg_lstr_cmp_bounded, if_pos ⟨h1, h2⟩]
  have hcl : (lstr_content str).length = str.size := lstr_content_length str h
  by_cases heq : str.size = other.length
  · have hmax : max str.size other.length = str.size := by omega
    rw [hmax]
    rw [psg_lstr_cmp_bounded_core_correct str other str.size h (by omega) (by omega)]
    have htA : (lstr_content str).take str.size = lstr_content str := by
      rw [← hcl, List.take_length]
    have htB : other.take str.size = other := by
      rw [heq, List.take_length]
    rw [htA, htB]
    constructor
    · intro hco; exact ⟨heq, hco⟩
    · rintro ⟨-, hco⟩; exact hco
  · rw [psg_lstr_cmp_bounded_core]
    have hm0 : max str.size other.length ≠ 0 := by omega
    rw [if_neg hm0]
    rw [if_pos (by omega : str.size < max str.size other.length ∨
      other.length < max str.size other.length)]
    simp only [Bool.false_eq_true, false_iff]
    rintro ⟨hc, -⟩
    exact heq hc

/-- Witness for C2's amended statement: bound 5 exceeds both operands. -/
theorem psg_lstr_cmp_bounded_exceed_correct_witness :
    LString.wf cexStr ∧ cexStr.size < 5 ∧ ([97] : List Nat).length < 5 ∧
      (psg_lstr_cmp_bounded cexStr [97] 5 = true ↔
        (cexStr.size = ([97] : List Nat).length ∧ lstr_content cexStr = [97])) :=
  ⟨by decide, by decide, by decide,
    psg_lstr_cmp_bounded_exceed_correct cexStr [97] 5 (by decide) (by decide)
      (by decide)⟩

/-! ## Segmented-vs-segmented comparison: the lockstep window loop -/

theorem offOk_zero (ps : List Part) (h : partsWf ps) : offOk ps 0 := by
  cases ps with
  | nil => trivial
  | cons p rest => exact (partsWf_cons_head h).1

theorem remContent_zero (ps : List Part) : remContent ps 0 = partsContent ps := by
  cases ps with
  | nil => rfl
  | cons p rest => simp [remContent, partsContent]

theorem remContent_cons_length (p : Part) (rest : List Part) (off : Nat)
    (hp : partWf p) (_hoff : off ≤ p.size) :
    (remContent (p :: rest) off).length =
      (p.size - off) + (partsContent rest).length := by
  simp [remContent, List.length_drop, Part.bytes_length p hp]

theorem remContent_take_chunk (p : Part) (rest : List Part) (off cl : Nat)
    (hp : partWf p) (hcl : cl ≤ p.size - off) :
    (remContent (p :: rest) off).take cl = (p.data.drop off).take cl := by
  rw [remContent, List.take_append_of_le_length (by
    rw [List.length_drop, Part.bytes_length p hp]; omega)]
  rw [Part.bytes, List.drop_take, List.take_take]
  congr 1
  omega

theorem remContent_drop_end (p : Part) (rest : List Part) (off : Nat)
    (hp : partWf p) (hoff : off ≤ p.size) :
    (remContent (p :: rest) off).drop (p.size - off) = partsContent rest := by
  rw [remContent, List.drop_append_of_le_length (by
    rw [List.length_drop, Part.bytes_length p hp])]
  have hnil : (p.bytes.drop off).drop (p.size - off) = [] := by
    rw [List.drop_drop]
    rw [show off + (p.size - off) = p.size from by omega]
    rw [← Part.bytes_length p hp, List.drop_length]
  rw [hnil, List.nil_append]

theorem remContent_drop_mid (p : Part) (rest : List Part) (off cl : Nat)
    (hp : partWf p) (h : off + cl ≤ p.size) :
    (remContent (p :: rest) off).drop cl = remContent (p :: rest) (off + cl) := by
  rw [remContent, remContent, List.drop_append_of_le_length (by
    rw [List.length_drop, Part.bytes_length p hp]; omega), List.drop_drop]

theorem rem_eq_iff_drop_eq (A B : List Nat) (cl : Nat)
    (hchunk : A.take cl = B.take cl) :
    (A = B ↔ A.drop cl = B.drop cl) := by
  constructor
  · intro h; rw [h]
  · intro h
    rw [← List.take_append_drop cl A, ← List.take_append_drop cl B, hchunk, h]

theorem cmpLstrLoop_cons (ap : Part) (arest : List Part) (aOff : Nat)
    (bp : Part) (brest : List Part) (bOff : Nat) :
    cmpLstrLoop (ap :: arest) aOff (bp :: brest) bOff =
      (if (ap.data.drop aOff).take (min (ap.size - aOff) (bp.size - bOff)) ≠
          (bp.data.drop bOff).take (min (ap.size - aOff) (bp.size - bOff)) then false
      else if (aOff + min (ap.size - aOff) (bp.size - bOff) = ap.size ∧ arest = []) ∨
              (bOff + min (ap.size - aOff) (bp.size - bOff) = bp.size ∧ brest = []) then
        true
      else if aOff + min (ap.size - aOff) (bp.size - bOff) = ap.size then
        if bOff + min (ap.size - aOff) (bp.size - bOff) = bp.size then
          cmpLstrLoop arest 0 brest 0
        else
          cmpLstrLoop arest 0 (bp :: brest)
            (bOff + min (ap.size - aOff) (bp.size - bOff))
      else
        cmpLstrLoop (ap :: arest) (aOff + min (ap.size - aOff) (bp.size - bOff))
          brest 0) := by
  rw [cmpLstrLoop]

theorem cmpLstrLoopChecked_cons (ap : Part) (arest : List Part) (aOff : Nat)
    (bp : Part) (brest : List Part) (bOff : Nat) :
    cmpLstrLoopChecked (ap :: arest) aOff (bp :: brest) bOff =
      (if (ap.data.drop aOff).take (min (ap.size - aOff) (bp.size - bOff)) ≠
          (bp.data.drop bOff).take (min (ap.size - aOff) (bp.size - bOff)) then
        some false
      else if (aOff + min (ap.size - aOff) (bp.size - bOff) = ap.size ∧ arest = []) ∨
              (bOff + min (ap.size - aOff) (bp.size - bOff) = bp.size ∧ brest = []) then
        if aOff + min (ap.size - aOff) (bp.size - bOff) = ap.size ∧
            bOff + min (ap.size - aOff) (bp.size - bOff) = bp.size ∧
            arest = [] ∧ brest = [] then some true
        else none
      else if aOff + min (ap.size - aOff) (bp.size - bOff) = ap.size then
        if bOff + min (ap.size - aOff) (bp.size - bOff) = bp.size then
          cmpLstrLoopChecked arest 0 brest 0
        else
          cmpLstrLoopChecked arest 0 (bp :: brest)
            (bOff + min (ap.size - aOff) (bp.size - bOff))
      else
        cmpLstrLoopChecked (ap :: arest)
          (aOff + min (ap.size - aOff) (bp.size - bOff)) brest 0) := by
  rw [cmpLstrLoopChecked]

theorem cmpLstrLoop_correct_aux (fuel : Nat) : ∀ (aps : List Part) (aOff : Nat)
    (bps : List Part) (bOff : Nat),
    aps.length + bps.length ≤ fuel →
    partsWf aps → partsWf bps →
    offOk aps aOff → offOk bps bOff →
    aps ≠ [] →
    (remContent aps aOff).length = (remContent bps bOff).length →
    (cmpLstrLoop aps aOff bps bOff = true ↔
      remContent aps aOff = remContent bps bOff) := by
  induction fuel with
  | zero =>
    intro aps aOff bps bOff hf _ _ _ _ hne _
    rcases aps with _ | ⟨ap, arest⟩
    · exact absurd rfl hne
    · simp at hf
  | succ n ih =>
    intro aps aOff bps bOff hf hwa hwb hoa hob hne hlen
    rcases aps with _ | ⟨ap, arest⟩
    · exact absurd rfl hne
    rcases bps with _ | ⟨bp, brest⟩
    · exfalso
      have hap : partWf ap := partsWf_cons_head hwa
      have hoa' : aOff < ap.size := hoa
      rw [remContent_cons_length ap arest aOff hap (by omega),
        show remContent [] bOff = [] from rfl] at hlen
      simp at hlen
      omega
    have hoa' : aOff < ap.size := hoa
    have hob' : bOff < bp.size := hob
    have hap : partWf ap := partsWf_cons_head hwa
    have hbp : partWf bp := partsWf_cons_head hwb
    have hwa' : partsWf arest := partsWf_cons_tail hwa
    have hwb' : partsWf brest := partsWf_cons_tail hwb
    have hlA : (remContent (ap :: arest) aOff).length =
        (ap.size - aOff) + (partsContent arest).length :=
      remContent_cons_length ap arest aOff hap (by omega)
    have hlB : (remContent (bp :: brest) bOff).length =
        (bp.size - bOff) + (partsContent brest).length :=
      remContent_cons_length bp brest bOff hbp (by omega)
    rw [cmpLstrLoop_cons]
    set cl := min (ap.size - aOff) (bp.size - bOff) with hclDef
    have hclA : cl ≤ ap.size - aOff := by omega
    have hclB : cl ≤ bp.size - bOff := by omega
    have htkA : (remContent (ap :: arest) aOff).take cl = (ap.data.drop aOff).take cl :=
      remContent_take_chunk ap arest aOff cl hap hclA
    have htkB : (remContent (bp :: brest) bOff).take cl = (bp.data.drop bOff).take cl :=
      remContent_take_chunk bp brest bOff cl hbp hclB
    by_cases hc : (ap.data.drop aOff).take cl = (bp.data.drop bOff).take cl
    case neg =>
      rw [if_pos hc]
      simp only [Bool.false_eq_true, false_iff]
      intro heq
      apply hc
      rw [← htkA, ← htkB, heq]
    case pos =>
      rw [if_neg (not_not_intro hc)]
      have hbridge : remContent (ap :: arest) aOff = remContent (bp :: brest) bOff ↔
          (remContent (ap :: arest) aOff).drop cl =
            (remContent (bp :: brest) bOff).drop cl :=
        rem_eq_iff_drop_eq _ _ cl (by rw [htkA, htkB]; exact hc)
      by_cases hsucc : (aOff + cl = ap.size ∧ arest = []) ∨
          (bOff + cl = bp.size ∧ brest = [])
      · rw [if_pos hsucc]
        constructor
        · intro _
          rw [hbridge]
          rcases hsucc with ⟨haEnd, haRest⟩ | ⟨hbEnd, hbRest⟩
          · have hdA : (remContent (ap :: arest) aOff).drop cl = [] := by
              apply List.length_eq_zero.mp
              rw [List.length_drop, hlA, haRest]
              show (ap.size - aOff) + (partsContent []).length - cl = 0
              simp only [partsContent, List.length_nil]
              omega
            have hdB : (remContent (bp :: brest) bOff).drop cl = [] := by
              apply List.length_eq_zero.mp
              rw [List.length_drop, ← hlen, hlA, haRest]
              show (ap.size - aOff) + (partsContent []).length - cl = 0
              simp only [partsContent, List.length_nil]
              omega
            rw [hdA, hdB]
          · have hdB : (remContent (bp :: brest) bOff).drop cl = [] := by
              apply List.length_eq_zero.mp
              rw [List.length_drop, hlB, hbRest]
              show (bp.size - bOff) + (partsContent []).length - cl = 0
              simp only [partsContent, List.length_nil]
              omega
            have hdA : (remContent (ap :: arest) aOff).drop cl = [] := by
              apply List.length_eq_zero.mp
              rw [List.length_drop, hlen, hlB, hbRest]
              show (bp.size - bOff) + (partsContent []).length - cl = 0
              simp only [partsContent, List.length_nil]
              omega
            rw [hdA, hdB]
        · intro _; rfl
      · rw [if_neg hsucc]
        push_neg at hsucc
        obtain ⟨hs1, hs2⟩ := hsucc
        by_cases haEnd : aOff + cl = ap.size
        · by_cases hbEnd : bOff + cl = bp.size
          · rw [if_pos haEnd, if_pos hbEnd]
            have harest : arest ≠ [] := hs1 haEnd
            have hbrest : brest ≠ [] := hs2 hbEnd
            have hdA : (remContent (ap :: arest) aOff).drop cl =
                remContent arest 0 := by
              rw [remContent_zero, show cl = ap.size - aOff from by omega]
              exact remContent_drop_end ap arest aOff hap (by omega)
            have hdB : (remContent (bp :: brest) bOff).drop cl =
                remContent brest 0 := by
              rw [remContent_zero, show cl = bp.size - bOff from by omega]
              exact remContent_drop_end bp brest bOff hbp (by omega)
            have hlen2 : (remContent arest 0).length = (remContent brest 0).length := by
              rw [← hdA, ← hdB, List.length_drop, List.length_drop, hlen]
            rw [ih arest 0 brest 0
              (by simp only [List.length_cons] at hf; omega) hwa' hwb'
              (offOk_zero arest hwa') (offOk_zero brest hwb') harest hlen2]
            rw [hbridge, hdA, hdB]
          · rw [if_pos haEnd, if_neg hbEnd]
            have harest : arest ≠ [] := hs1 haEnd
            have hdA : (remContent (ap :: arest) aOff).drop cl =
                remContent arest 0 := by
              rw [remContent_zero, show cl = ap.size - aOff from by omega]
              exact remContent_drop_end ap arest aOff hap (by omega)
            have hdB : (remContent (bp :: brest) bOff).drop cl =
                remContent (bp :: brest) (bOff + cl) :=
              remContent_drop_mid bp brest bOff cl hbp (by omega)
            have hoffB : offOk (bp :: brest) (bOff + cl) := by
              show bOff + cl < bp.size
              omega
            have hlen2 : (remContent arest 0).length =
                (remContent (bp :: brest) (bOff + cl)).length := by
              rw [← hdA, ← hdB, List.length_drop, List.length_drop, hlen]
            rw [ih arest 0 (bp :: brest) (bOff + cl)
              (by simp only [List.length_cons] at hf ⊢; omega) hwa' hwb
              (offOk_zero arest hwa') hoffB harest hlen2]
            rw [hbridge, hdA, hdB]
        · have hbEnd : bOff + cl = bp.size := by omega
          rw [if_neg haEnd]
          have hbrest : brest ≠ [] := hs2 hbEnd
          have hdA : (remContent (ap :: arest) aOff).drop cl =
              remContent (ap :: arest) (aOff + cl) :=
            remContent_drop_mid ap arest aOff cl hap (by omega)
          have hdB : (remContent (bp :: brest) bOff).drop cl =
              remContent brest 0 := by
            rw [remContent_zero, show cl = bp.size - bOff from by omega]
            exact remContent_drop_end bp brest bOff hbp (by omega)
          have hoffA : offOk (ap :: arest) (aOff + cl) := by
            show aOff + cl < ap.size
            omega
          have hlen2 : (remContent (ap :: arest) (aOff + cl)).length =
              (remContent brest 0).length := by
            rw [← hdA, ← hdB, List.length_drop, List.length_drop, hlen]
          rw [ih (ap :: arest) (aOff + cl) brest 0
            (by simp only [List.length_cons] at hf ⊢; omega) hwa hwb'
            hoffA (offOk_zero brest hwb') (by simp) hlen2]
          rw [hbridge, hdA, hdB]

/-- C1: the segmented-vs-segmented comparison is segmentation-transparent:
for well-formed operands it returns true iff the two concatenated byte
contents are equal, however the two strings are partitioned into parts. -/
theorem psg_lstr_cmp_ll_correct (A B : LString) (hA : A.wf) (hB : B.wf) :
    (psg_lstr_cmp_ll A B = true ↔ lstr_content A = lstr_content B) := by
  rw [psg_lstr_cmp_ll]
  have hclA : (lstr_content A).length = A.size := lstr_content_length A hA
  have hclB : (lstr_content B).length = B.size := lstr_content_length B hB
  by_cases hlen : A.size = B.size
  · rw [if_neg (by simpa using hlen)]
    by_cases h0 : A.size = 0
    · rw [if_pos h0]
      have hpA := wf_size_zero A hA h0
      have hpB := wf_size_zero B hB (by omega)
      constructor
      · intro _
        rw [lstr_content, lstr_content, hpA, hpB]
      · intro _; rfl
    · rw [if_neg h0]
      have hposA : 0 < A.size := by omega
      have hneA : A.parts ≠ [] := wf_size_pos_parts_ne_nil A hA hposA
      by_cases hfast : 0 < A.size ∧
          (psg_lstr_first_byte A ≠ psg_lstr_first_byte B ∨
           psg_lstr_last_byte A ≠ psg_lstr_last_byte B)
      · rw [if_pos hfast]
        simp only [Bool.false_eq_true, false_iff]
        intro heq
        have hneB : B.parts ≠ [] := wf_size_pos_parts_ne_nil B hB (by omega)
        obtain ⟨-, hbad⟩ := hfast
        rcases hbad with hfb | hlb
        · exact hfb (by
            rw [first_byte_content A hA hneA, first_byte_content B hB hneB, heq])
        · exact hlb (by
            rw [last_byte_content A hA hneA, last_byte_content B hB hneB, heq])
      · rw [if_neg hfast]
        have hmain := cmpLstrLoop_correct_aux (A.parts.length + B.parts.length)
          A.parts 0 B.parts 0 le_rfl hA.2 hB.2 (offOk_zero _ hA.2) (offOk_zero _ hB.2)
          hneA (by
            rw [remContent_zero, remContent_zero]
            rw [lstr_content] at hclA hclB
            omega)
        rw [hmain, remContent_zero, remContent_zero, lstr_content, lstr_content]
  · rw [if_pos (by simpa using hlen)]
    simp only [Bool.false_eq_true, false_iff]
    intro heq
    apply hlen
    rw [← hclA, ← hclB, heq]

/-- Witness for C1 at the spec scenario `A = "ab","c"`, `B = "a","bc"`:
differently segmented, equal content. -/
theorem psg_lstr_cmp_ll_correct_witness :
    LString.wf wA ∧ LString.wf wB ∧
      (psg_lstr_cmp_ll wA wB = true ↔ lstr_content wA = lstr_content wB) :=
  ⟨by decide, by decide, psg_lstr_cmp_ll_correct wA wB (by decide) (by decide)⟩

theorem cmpLstrLoopChecked_eq_aux (fuel : Nat) : ∀ (aps : List Part) (aOff : Nat)
    (bps : List Part) (bOff : Nat),
    aps.length + bps.length ≤ fuel →
    partsWf aps → partsWf bps →
    offOk aps aOff → offOk bps bOff →
    aps ≠ [] →
    (remContent aps aOff).length = (remContent bps bOff).length →
    cmpLstrLoopChecked aps aOff bps bOff = some (cmpLstrLoop aps aOff bps bOff) := by
  induction fuel with
  | zero =>
    intro aps aOff bps bOff hf _ _ _ _ hne _
    rcases aps with _ | ⟨ap, arest⟩
    · exact absurd rfl hne
    · simp at hf
  | succ n ih =>
    intro aps aOff bps bOff hf hwa hwb hoa hob hne hlen
    rcases aps with _ | ⟨ap, arest⟩
    · exact absurd rfl hne
    rcases bps with _ | ⟨bp, brest⟩
    · exfalso
      have hap : partWf ap := partsWf_cons_head hwa
      have hoa' : aOff < ap.size := hoa
      rw [remContent_cons_length ap arest aOff hap (by omega),
        show remContent [] bOff = [] from rfl] at hlen
      simp at hlen
      omega
    have hoa' : aOff < ap.size := hoa
    have hob' : bOff < bp.size := hob
    have hap : partWf ap := partsWf_cons_head hwa
    have hbp : partWf bp := partsWf_cons_head hwb
    have hwa' : partsWf arest := partsWf_cons_tail hwa
    have hwb' : partsWf brest := partsWf_cons_tail hwb
    have hlA : (remContent (ap :: arest) aOff).length =
        (ap.size - aOff) + (partsContent arest).length :=
      remContent_cons_length ap arest aOff hap (by omega)
    have hlB : (remContent (bp :: brest) bOff).length =
        (bp.size - bOff) + (partsContent brest).length :=
      remContent_cons_length bp brest bOff hbp (by omega)
    rw [cmpLstrLoopChecked_cons, cmpLstrLoop_cons]
    set cl := min (ap.size - aOff) (bp.size - bOff) with hclDef
    by_cases hc : (ap.data.drop aOff).take cl = (bp.data.drop bOff).take cl
    case neg =>
      rw [if_pos hc, if_pos hc]
    case pos =>
      rw [if_neg (not_not_intro hc), if_neg (not_not_intro hc)]
      by_cases hsucc : (aOff + cl = ap.size ∧ arest = []) ∨
          (bOff + cl = bp.size ∧ brest = [])
      · rw [if_pos hsucc, if_pos hsucc]
        have hassert : aOff + cl = ap.size ∧ bOff + cl = bp.size ∧
            arest = [] ∧ brest = [] := by
          rcases hsucc with ⟨haEnd, haRest⟩ | ⟨hbEnd, hbRest⟩
          · have hlenA : (remContent (ap :: arest) aOff).length = ap.size - aOff := by
              rw [hlA, haRest]
              show (ap.size - aOff) + (partsContent []).length = ap.size - aOff
              simp [partsContent]
            have h5 : (bp.size - bOff) + (partsContent brest).length = cl := by
              rw [← hlB, ← hlen, hlenA]
              omega
            have hbEnd : bOff + cl = bp.size := by omega
            have hbRest : brest = [] :=
              (partsContent_eq_nil_iff brest hwb').mp
                (List.length_eq_zero.mp (by omega))
            exact ⟨haEnd, hbEnd, haRest, hbRest⟩
          · have hlenB : (remContent (bp :: brest) bOff).length = bp.size - bOff := by
              rw [hlB, hbRest]
              show (bp.size - bOff) + (partsContent []).length = bp.size - bOff
              simp [partsContent]
            have h5 : (ap.size - aOff) + (partsContent arest).length = cl := by
              rw [← hlA, hlen, hlenB]
              omega
            have haEnd : aOff + cl = ap.size := by omega
            have haRest : arest = [] :=
              (partsContent_eq_nil_iff arest hwa').mp
                (List.length_eq_zero.mp (by omega))
            exact ⟨haEnd, hbEnd, haRest, hbRest⟩
        rw [if_pos hassert]
      · rw [if_neg hsucc, if_neg hsucc]
        push_neg at hsucc
        obtain ⟨hs1, hs2⟩ := hsucc
        by_cases haEnd : aOff + cl = ap.size
        · by_cases hbEnd : bOff + cl = bp.size
          · rw [if_pos haEnd, if_pos haEnd, if_pos hbEnd, if_pos hbEnd]
            have harest : arest ≠ [] := hs1 haEnd
            have hlen2 : (remContent arest 0).length = (remContent brest 0).length := by
              rw [remContent_zero, remContent_zero]
              omega
            exact ih arest 0 brest 0
              (by simp only [List.length_cons] at hf; omega) hwa' hwb'
              (offOk_zero arest hwa') (offOk_zero brest hwb') harest hlen2
          · rw [if_pos haEnd, if_pos haEnd, if_neg hbEnd, if_neg hbEnd]
            have harest : arest ≠ [] := hs1 haEnd
            have hlB2 : (remContent (bp :: brest) (bOff + cl)).length =
                (bp.size - (bOff + cl)) + (partsContent brest).length :=
              remContent_cons_length bp brest (bOff + cl) hbp (by omega)
            have hlen2 : (remContent arest 0).length =
                (remContent (bp :: brest) (bOff + cl)).length := by
              rw [remContent_zero]
              omega
            exact ih arest 0 (bp :: brest) (bOff + cl)
              (by simp only [List.length_cons] at hf ⊢; omega) hwa' hwb
              (offOk_zero arest hwa') (by show bOff + cl < bp.size; omega)
              harest hlen2
        · have hbEnd : bOff + cl = bp.size := by omega
          rw [if_neg haEnd, if_neg haEnd]
          have hbrest : brest ≠ [] := hs2 hbEnd
          have hlA2 : (remContent (ap :: arest) (aOff + cl)).length =
              (ap.size - (aOff + cl)) + (partsContent arest).length :=
            remContent_cons_length ap arest (aOff + cl) hap (by omega)
          have hlen2 : (remContent (ap :: arest) (aOff + cl)).length =
              (remContent brest 0).length := by
            rw [remContent_zero]
            omega
          exact ih (ap :: arest) (aOff + cl) brest 0
            (by simp only [List.length_cons] at hf ⊢; omega) hwa hwb'
            (by show aOff + cl < ap.size; omega) (offOk_zero brest hwb')
            (by simp) hlen2

/-- C9: under well-formedness of both operands and a passed length-equality
check, the lockstep loop entered by `psg_lstr_cmp(LString*, LString*)` never
fails its success-exit consistency assertions (both windows are at the end of
their final parts with no next part), so the instrumented loop returns
exactly the plain loop's result and never reports an assertion failure. -/
theorem psg_lstr_cmp_ll_asserts (A B : LString) (hA : A.wf) (hB : B.wf)
    (hsize : A.size = B.size) (hpos : 0 < A.size) :
    cmpLstrLoopChecked A.parts 0 B.parts 0 =
      some (cmpLstrLoop A.parts 0 B.parts 0) := by
  have hneA := wf_size_pos_parts_ne_nil A hA hpos
  exact cmpLstrLoopChecked_eq_aux (A.parts.length + B.parts.length) A.parts 0
    B.parts 0 le_rfl hA.2 hB.2 (offOk_zero _ hA.2) (offOk_zero _ hB.2) hneA (by
      rw [remContent_zero, remContent_zero]
      have hclA := lstr_content_length A hA
      have hclB := lstr_content_length B hB
      rw [lstr_content] at hclA hclB
      omega)

/-- Witness for C9 at the spec scenario values. -/
theorem psg_lstr_cmp_ll_asserts_witness :
    LString.wf wA ∧ LString.wf wB ∧ wA.size = wB.size ∧ 0 < wA.size ∧
      cmpLstrLoopChecked wA.parts 0 wB.parts 0 =
        some (cmpLstrLoop wA.parts 0 wB.parts 0) :=
  ⟨by decide, by decide, by decide, by decide,
    psg_lstr_cmp_ll_asserts wA wB (by decide) (by decide) (by decide) (by decide)⟩

end LStringModel
